import Mathlib

set_option maxHeartbeats 1000000

/-!
Verification of the `Editor` coordinator of JSON-Splora
(src/app/js/Editor.js): document validation (`validate`), auto-formatting
(`formatInput`) and the two-stage filter pipeline (`runFilter`).

The coordinator delegates to external collaborators (the json5 parser, the
Node vm expression evaluator, the node-jq query evaluator, JSON.stringify and
the CodeMirror surface).  Those collaborators are not part of this repository;
the coordinator's operations are therefore embedded as functions parameterised
over them, and where a claim needs a concrete collaborator it is modelled from
the specification (each such definition is marked `Modelled from the spec:`).
-/

/-- JavaScript runtime values as far as the coordinator observes them: the
parsed JSON document, filter results and sandbox contents.  `undefined` is the
JavaScript value `undefined`, kept distinct from `null`.  Numbers are modelled
as integers (the floating-point range of JavaScript numbers is orthogonal to
every claim treated here). -/
inductive JSValue where
  | undefined : JSValue
  | null : JSValue
  | bool (b : Bool) : JSValue
  | num (n : Int) : JSValue
  | str (s : String) : JSValue
  | arr (xs : List JSValue) : JSValue
  | obj (fields : List (String × JSValue)) : JSValue

/-- JavaScript strict equality with `null`, as used by the source's
`result === null` (Editor.js line 162) and `null !== this.data`
(Editor.js line 116).  `undefined === null` is false in JavaScript. -/
def JSValue.isNull : JSValue → Bool
  | .null => true
  | _ => false

/-- JavaScript truthiness, as used by the source's `if (sandbox.result)`
(Editor.js line 147): `undefined`, `null`, `false`, `0` and the empty string
are falsy; every other value (including every object and array) is truthy. -/
def JSValue.truthy : JSValue → Bool
  | .undefined => false
  | .null => false
  | .bool b => b
  | .num n => n != 0
  | .str s => s != ""
  | .arr _ => true
  | .obj _ => true

/-- The events the coordinator emits (Editor.js: `input-valid`,
`filter-empty`, `filter-valid` with payload fields `result` and `type`,
`filter-invalid`). -/
inductive Event where
  | inputValid : Event
  | filterEmpty : Event
  | filterValid (result : JSValue) (type : String) : Event
  | filterInvalid : Event

/-- Terminal filter outcomes in the sense of the spec: the
`filter-valid` / `filter-invalid` pair. -/
def Event.isTerminal : Event → Bool
  | .filterValid _ _ => true
  | .filterInvalid => true
  | _ => false

/-- The coordinator's only mutable state: the `this.data` field of `Editor`.
The constructor (Editor.js lines 28-60) never assigns `this.data`, so in the
initial state the field reads as JavaScript `undefined`. -/
structure EditorState where
  data : JSValue

/-- The state of a freshly constructed `Editor`: `this.data` is unset, i.e.
`undefined`. -/
def initState : EditorState := ⟨JSValue.undefined⟩

/-- `Editor.validate` (Editor.js lines 99-109), parameterised over the
external json5 parser (`parse`, with `none` standing for a thrown
`ParseError`) and the current editor text (`this.editor.getValue()`).
Returns the new state, the emitted events and the boolean result:
on a successful parse it stores the value in `this.data`, emits
`input-valid` and returns `true`; on a parse failure the catch block sets
`this.data = null` and returns `false`, emitting nothing. -/
def validate (parse : String → Option JSValue) (input : String)
    (s : EditorState) : EditorState × List Event × Bool :=
  match parse input with
  | some v => ({ s with data := v }, [Event.inputValid], true)
  | none => ({ s with data := JSValue.null }, [], false)

/-- The observable effect of `Editor.formatInput` on the editor surface:
either nothing, or a call to `this.editor.setValue` whose argument is a
string — or the JavaScript value `undefined` (modelled as `none`), which is
what `JSON.stringify(undefined, null, 2)` evaluates to. -/
inductive FormatAction where
  | noop : FormatAction
  | setValue (text : Option String) : FormatAction

/-- The semantics of the external Node vm expression evaluator as used at
Editor.js lines 137-146: run the code string in a fresh context whose global
(sandbox) object is `{x: this.data, result: null}` and observe
`sandbox.result` afterwards.  Because the sandbox holds a reference to the
document object, a script may mutate the object `this.data` refers to; an
evaluator therefore returns, on success, the post-run value of the shared
document object together with the final `sandbox.result`, and `error` when
the script throws (including a `vm.Script` construction failure). -/
def VmSem : Type := String → JSValue → Except Unit (JSValue × JSValue)

/-- The semantics of the external node-jq query evaluator as used at
Editor.js lines 158-179: `jq.run(filter, this.data, ...)` eventually either
resolves with a value (possibly `null`) or rejects (`error`). -/
def JqSem : Type := String → JSValue → Except Unit JSValue

/-- `Editor.runFilter` (Editor.js lines 125-181), parameterised over the two
external evaluators.  `filterVal` is the value of `this.filter.val()`
(`none` for an absent value, mirroring the `!filter` half of the source's
emptiness test).  The returned event list is the complete sequence of events
this invocation ever emits; the events produced inside the jq promise's
`then`/`catch` continuations are the tail of that list (they arrive
asynchronously, but belong to this invocation). -/
def runFilter (vmRun : VmSem) (jqRun : JqSem) (filterVal : Option String)
    (s : EditorState) : EditorState × List Event :=
  match filterVal with
  | none => (s, [Event.filterEmpty])
  | some filter =>
    if filter.isEmpty then (s, [Event.filterEmpty])
    else
      match vmRun ("result = x" ++ filter) s.data with
      | .ok (docAfter, result) =>
        if result.truthy then
          ({ s with data := docAfter }, [Event.filterValid result "js"])
        else
          ({ s with data := docAfter }, [Event.filterInvalid])
      | .error _ =>
        match jqRun filter s.data with
        | .ok result =>
          if result.isNull then (s, [Event.filterInvalid])
          else (s, [Event.filterValid result "jq"])
        | .error _ => (s, [Event.filterInvalid])

/-! ### Concrete collaborators, modelled from the spec -/

/-- Characters of a JavaScript identifier, for parsing access-chain filters. -/
def identChar (c : Char) : Bool := c.isAlphanum || c = '_' || c = '$'

/-- JavaScript property access `v.k`: throws a TypeError on `undefined` and
`null`, yields `undefined` for a missing key and for non-object receivers,
and the stored value for a present key. -/
def getField : JSValue → String → Except Unit JSValue
  | .undefined, _ => .error ()
  | .null, _ => .error ()
  | .obj fields, k =>
    .ok (match fields.find? (fun p => p.1 == k) with
         | some p => p.2
         | none => .undefined)
  | _, _ => .ok .undefined

/-- JavaScript index access `v[i]` for a numeric literal index: throws on
`undefined` and `null`, yields the element or `undefined` on arrays, and
`undefined` on other receivers. -/
def getIndex : JSValue → Nat → Except Unit JSValue
  | .undefined, _ => .error ()
  | .null, _ => .error ()
  | .arr xs, i => .ok (xs.getD i .undefined)
  | _, _ => .ok .undefined

/-- Numeric value of a big-endian list of decimal digit characters. -/
def charsNat (cs : List Char) : Nat :=
  cs.foldl (fun a c => a * 10 + (c.toNat - 48)) 0

/-- Fuel-indexed worker for `evalChain`; the fuel only needs to dominate the
length of the remaining input. -/
def evalChainF : Nat → List Char → JSValue → Except Unit JSValue
  | _, [], v => .ok v
  | 0, _ :: _, _ => .error ()
  | fuel + 1, c :: rest, v =>
    if c = '.' then
      if (rest.takeWhile identChar).isEmpty then .error ()
      else
        match getField v (String.mk (rest.takeWhile identChar)) with
        | .ok v' => evalChainF fuel (rest.dropWhile identChar) v'
        | .error _ => .error ()
    else if c = '[' then
      if (rest.takeWhile Char.isDigit).isEmpty then .error ()
      else
        match rest.dropWhile Char.isDigit with
        | ']' :: rest' =>
          match getIndex v (charsNat (rest.takeWhile Char.isDigit)) with
          | .ok v' => evalChainF fuel rest' v'
          | .error _ => .error ()
        | _ => .error ()
    else .error ()

/-- Modelled from the spec: evaluation of a property/array access chain such
as `.a.b[1]` against a value, with JavaScript soft-failure semantics (missing
keys give `undefined`; access on `undefined`/`null` throws).  This is the
fragment of the external expression evaluator the spec describes
("enabling property/array access chains like .a.b[0]"). -/
def evalChain (cs : List Char) (v : JSValue) : Except Unit JSValue :=
  evalChainF cs.length cs v

/-- Modelled from the spec: the vm evaluator instantiated at access-chain
filters.  `runFilter` hands it the code string `result = x<filter>`; this
instance evaluates the chain `<filter>` against the document bound to `x`,
never mutating the document, and throws on anything that is not an access
chain. -/
def vmRunChain : VmSem := fun code doc =>
  match code.toList with
  | 'r' :: 'e' :: 's' :: 'u' :: 'l' :: 't' :: ' ' :: '=' :: ' ' :: 'x' :: rest =>
    match evalChain rest doc with
    | .ok r => .ok (doc, r)
    | .error _ => .error ()
  | _ => .error ()

/-- Modelled from the spec: a query-evaluator run that rejects (filter text
invalid in the query language). -/
def jqReject : JqSem := fun _ _ => .error ()

/-- Modelled from the spec: a query-evaluator run that resolves with a fixed
value (e.g. `null` for an incorrect key, or the selected value). -/
def jqConst (v : JSValue) : JqSem := fun _ _ => .ok v

/-! ### Serialization, modelled from the spec (JSON.stringify(v, null, 2)) -/

/-- The decimal digit character for `d < 10`. -/
def digitChar (d : Nat) : Char := Char.ofNat (48 + d)

/-- Decimal digit characters of a natural number, most significant first. -/
def natChars (n : Nat) : List Char :=
  if n = 0 then ['0'] else (Nat.digits 10 n).reverse.map digitChar

/-- Decimal notation of an integer as JSON.stringify prints numbers in this
model. -/
def intChars (i : Int) : List Char :=
  if i < 0 then '-' :: natChars i.natAbs else natChars i.natAbs

/-- The string escapes this model covers: quote, backslash, newline, tab and
carriage return become two-character escapes; every other character is
emitted verbatim. -/
def escChar (c : Char) : List Char :=
  if c = '"' then ['\\', '"']
  else if c = '\\' then ['\\', '\\']
  else if c = '\n' then ['\\', 'n']
  else if c = '\t' then ['\\', 't']
  else if c = '\r' then ['\\', 'r']
  else [c]

/-- Escape the characters of a string body. -/
def escStr (cs : List Char) : List Char := (cs.map escChar).flatten

/-- `n` spaces of indentation. -/
def indentC (n : Nat) : List Char := List.replicate n ' '

mutual
/-- Modelled from the spec: JSON.stringify(v, null, 2) (Editor.js line 117)
on this value model: two-space indented output.  `undefined` is printed as
null here (documents containing `undefined` are unreachable from a
successful parse; the distinguished top-level undefined case lives in
`stringify`). -/
def serVal : Nat → JSValue → List Char
  | _, .undefined => ['n', 'u', 'l', 'l']
  | _, .null => ['n', 'u', 'l', 'l']
  | _, .bool true => ['t', 'r', 'u', 'e']
  | _, .bool false => ['f', 'a', 'l', 's', 'e']
  | _, .num i => intChars i
  | _, .str s => '"' :: (escStr s.data ++ ['"'])
  | _, .arr [] => ['[', ']']
  | ind, .arr (x :: xs) =>
    '[' :: '\n' :: (serItems (ind + 2) x xs ++ '\n' :: (indentC ind ++ [']']))
  | _, .obj [] => ['{', '}']
  | ind, .obj (p :: ps) =>
    '{' :: '\n' :: (serMembers (ind + 2) p ps ++ '\n' :: (indentC ind ++ ['}']))
termination_by ind v => sizeOf v
decreasing_by all_goals (simp_wf <;> omega)

/-- The comma-newline separated items of a non-empty array, each indented. -/
def serItems : Nat → JSValue → List JSValue → List Char
  | ind, x, [] => indentC ind ++ serVal ind x
  | ind, x, y :: ys =>
    indentC ind ++ (serVal ind x ++ ',' :: '\n' :: serItems ind y ys)
termination_by ind x xs => sizeOf x + sizeOf xs
decreasing_by all_goals (simp_wf <;> omega)

/-- The comma-newline separated members of a non-empty object, each of the
form `"key": value` and indented. -/
def serMembers : Nat → String × JSValue → List (String × JSValue) → List Char
  | ind, (k, v), [] =>
    indentC ind ++ '"' :: (escStr k.data ++ '"' :: ':' :: ' ' :: serVal ind v)
  | ind, (k, v), q :: qs =>
    indentC ind ++ '"' :: (escStr k.data ++ '"' :: ':' :: ' ' ::
      (serVal ind v ++ ',' :: '\n' :: serMembers ind q qs))
termination_by ind p ps => sizeOf p + sizeOf ps
decreasing_by all_goals (simp_wf <;> omega)
end

/-- Modelled from the spec: JSON.stringify(value, null, 2) as called by
formatInput (Editor.js line 117).  Returns `none` exactly when
JSON.stringify returns the JavaScript value undefined, i.e. on a top-level
undefined document. -/
def stringify : JSValue → Option String
  | .undefined => none
  | v => some (String.mk (serVal 0 v))

/-- `Editor.formatInput` (Editor.js lines 115-119): when `null !== this.data`
holds, replace the full editor content with
`JSON.stringify(this.data, null, 2)`; otherwise do nothing. -/
def formatInput (s : EditorState) : FormatAction :=
  if s.data.isNull then FormatAction.noop
  else FormatAction.setValue (stringify s.data)

/-- The emptiness guard of `runFilter` (Editor.js line 132):
`!filter || !filter.length`, true for an absent value and for the empty
string. -/
def emptyFilter : Option String → Bool
  | none => true
  | some s => s.isEmpty

/-! ### A JSON parser, modelled from the spec -/

/-- Whitespace characters the parser skips between tokens. -/
def isWsChar (c : Char) : Bool := c = ' ' || c = '\n' || c = '\t' || c = '\r'

/-- Drop leading whitespace. -/
def skipWs : List Char → List Char
  | [] => []
  | c :: cs => if isWsChar c then skipWs cs else c :: cs

/-- The character denoted by the second character of a backslash escape. -/
def escVal (c : Char) : Option Char :=
  if c = '"' then some '"'
  else if c = '\\' then some '\\'
  else if c = 'n' then some '\n'
  else if c = 't' then some '\t'
  else if c = 'r' then some '\r'
  else none

/-- Parse a string body up to the closing quote, returning the unescaped
characters and the rest of the input. -/
def parseStr : List Char → Option (List Char × List Char)
  | [] => none
  | c :: cs =>
    if c = '"' then some ([], cs)
    else if c = '\\' then
      match cs with
      | [] => none
      | e :: cs' =>
        match escVal e with
        | none => none
        | some d =>
          match parseStr cs' with
          | some (sbody, r) => some (d :: sbody, r)
          | none => none
    else
      match parseStr cs with
      | some (sbody, r) => some (c :: sbody, r)
      | none => none

/-- Consume leading decimal digits, accumulating their value onto `acc`. -/
def parseDigits : List Char → Nat → Nat × List Char
  | [], acc => (acc, [])
  | c :: cs, acc =>
    if c.isDigit then parseDigits cs (acc * 10 + (c.toNat - 48)) else (acc, c :: cs)

/-- Match a literal character sequence at the start of the input. -/
def dropLit : List Char → List Char → Option (List Char)
  | [], cs => some cs
  | _ :: _, [] => none
  | p :: ps, c :: cs => if c = p then dropLit ps cs else none

/-- The pending work items of the recursive-descent parser: parse a value
(after whitespace), dispatch on the first character of a value, or parse the
remaining items/members of a non-empty array/object, carrying the
already-parsed ones in reverse. -/
inductive PTask where
  | val (cs : List Char) : PTask
  | core (cs : List Char) : PTask
  | elems (cs : List Char) (acc : List JSValue) : PTask
  | members (cs : List Char) (acc : List (String × JSValue)) : PTask

/-- The recursive-descent JSON parser, fuel-indexed; the fuel only needs to
dominate three times the node count of the parsed value. -/
def parseF : Nat → PTask → Option (JSValue × List Char)
  | 0, _ => none
  | fuel + 1, .val cs => parseF fuel (.core (skipWs cs))
  | _ + 1, .core [] => none
  | fuel + 1, .core (c :: cs) =>
    if c = '{' then
      match skipWs cs with
      | [] => none
      | d :: r =>
        if d = '}' then some (JSValue.obj [], r)
        else parseF fuel (.members cs [])
    else if c = '[' then
      match skipWs cs with
      | [] => none
      | d :: r =>
        if d = ']' then some (JSValue.arr [], r)
        else parseF fuel (.elems cs [])
    else if c = '"' then
      match parseStr cs with
      | some (sbody, r) => some (JSValue.str (String.mk sbody), r)
      | none => none
    else if c = '-' then
      match cs with
      | [] => none
      | d :: _ =>
        if d.isDigit then
          some (JSValue.num (-((parseDigits cs 0).1 : Int)), (parseDigits cs 0).2)
        else none
    else if c.isDigit then
      some (JSValue.num ((parseDigits (c :: cs) 0).1 : Int), (parseDigits (c :: cs) 0).2)
    else
      match dropLit ['n', 'u', 'l', 'l'] (c :: cs) with
      | some r => some (JSValue.null, r)
      | none =>
        match dropLit ['t', 'r', 'u', 'e'] (c :: cs) with
        | some r => some (JSValue.bool true, r)
        | none =>
          match dropLit ['f', 'a', 'l', 's', 'e'] (c :: cs) with
          | some r => some (JSValue.bool false, r)
          | none => none
  | fuel + 1, .elems cs acc =>
    match parseF fuel (.val cs) with
    | none => none
    | some (v, r) =>
      match skipWs r with
      | [] => none
      | d :: r' =>
        if d = ',' then parseF fuel (.elems r' (v :: acc))
        else if d = ']' then some (JSValue.arr (v :: acc).reverse, r')
        else none
  | fuel + 1, .members cs acc =>
    match skipWs cs with
    | [] => none
    | d :: cs' =>
      if d = '"' then
        match parseStr cs' with
        | none => none
        | some (kbody, r) =>
          match skipWs r with
          | [] => none
          | e :: r' =>
            if e = ':' then
              match parseF fuel (.val r') with
              | none => none
              | some (v, r2) =>
                match skipWs r2 with
                | [] => none
                | f :: r3 =>
                  if f = ',' then
                    parseF fuel (.members r3 ((String.mk kbody, v) :: acc))
                  else if f = '}' then
                    some (JSValue.obj ((String.mk kbody, v) :: acc).reverse, r3)
                  else none
            else none
      else none

/-- Modelled from the spec: the permissive JSON-superset document parser
(json5.parse, Editor.js line 102) on this value model: JSON values with
integer numbers, the escape set of `escChar`, and whitespace tolerated
around tokens.  `none` models a thrown ParseError. -/
def jsonParse (s : String) : Option JSValue :=
  match parseF (3 * s.toList.length + 3) (.val s.toList) with
  | some (v, r) => if (skipWs r).isEmpty then some v else none
  | none => none

mutual
/-- No `undefined` anywhere inside a value: the well-formedness every value
produced by the document parser enjoys. -/
def wf : JSValue → Bool
  | .undefined => false
  | .null => true
  | .bool _ => true
  | .num _ => true
  | .str _ => true
  | .arr xs => wfList xs
  | .obj ps => wfPairs ps
termination_by v => sizeOf v
decreasing_by all_goals (simp_wf <;> omega)

/-- `wf` on every item of a list. -/
def wfList : List JSValue → Bool
  | [] => true
  | x :: xs => wf x && wfList xs
termination_by xs => sizeOf xs
decreasing_by all_goals (simp_wf <;> omega)

/-- `wf` on every member value of an object field list. -/
def wfPairs : List (String × JSValue) → Bool
  | [] => true
  | (k, v) :: ps => wf v && wfPairs ps
termination_by ps => sizeOf ps
decreasing_by all_goals (simp_wf <;> omega)
end

mutual
/-- Node count of a value, a lower bound for the parser fuel. -/
def nodes : JSValue → Nat
  | .arr xs => nodesList xs + 1
  | .obj ps => nodesPairs ps + 1
  | _ => 1
termination_by v => sizeOf v
decreasing_by all_goals (simp_wf <;> omega)

/-- Sum of `nodes` over a list, plus one per item. -/
def nodesList : List JSValue → Nat
  | [] => 0
  | x :: xs => nodes x + nodesList xs + 1
termination_by xs => sizeOf xs
decreasing_by all_goals (simp_wf <;> omega)

/-- Sum of `nodes` over member values, plus one per member. -/
def nodesPairs : List (String × JSValue) → Nat
  | [] => 0
  | (k, v) :: ps => nodes v + nodesPairs ps + 1
termination_by ps => sizeOf ps
decreasing_by all_goals (simp_wf <;> omega)
end

/-- The input does not start with a decimal digit, so a preceding number
token cannot be extended by it. -/
def noDigitHead : List Char → Bool
  | [] => true
  | c :: _ => !c.isDigit

/-- Modelled from the spec: a vm evaluator run that throws (filter text
invalid as an expression, a syntax error or a runtime error). -/
def vmThrow : VmSem := fun _ _ => .error ()

/-- Modelled from the source (Editor.js lines 138-146) and Node vm reference
semantics: the evaluator run for the filter text `.a=5`.  The script
`result = x.a=5` assigns 5 to the property `a` of the object bound to `x`
inside the sandbox; the sandbox entry `x` holds a reference to the same
object as the coordinator's `this.data`, so the assignment mutates the
document object, and the value of the assignment expression, 5, ends up in
`sandbox.result`. -/
def vmAssignA : VmSem := fun code doc =>
  if code = "result = x.a=5" then
    match doc with
    | .obj fields =>
      .ok (JSValue.obj
        (fields.map (fun p => if p.1 = "a" then (p.1, JSValue.num 5) else p)),
        JSValue.num 5)
    | _ => .error ()
  else .error ()

/-- A vm evaluator that returns the sandbox result without mutating the
document behaves purely: `vmRunChain` is such an evaluator. -/
theorem vmRunChain_pure (code : String) (doc docAfter r : JSValue)
    (h : vmRunChain code doc = .ok (docAfter, r)) : docAfter = doc := by
  unfold vmRunChain at h
  split at h
  · split at h
    · simp only [Except.ok.injEq, Prod.mk.injEq] at h
      exact h.1.symm
    · simp at h
  · simp at h

/-!
### Round trip support: induction principle and token lemmas
-/

/-- Structural induction over `JSValue` with membership hypotheses for the
nested lists. -/
theorem JSValue.indOn (P : JSValue → Prop)
    (hundefined : P .undefined) (hnull : P .null) (hbool : ∀ b, P (.bool b))
    (hnum : ∀ n, P (.num n)) (hstr : ∀ s, P (.str s))
    (harr : ∀ xs, (∀ x ∈ xs, P x) → P (.arr xs))
    (hobj : ∀ ps, (∀ p ∈ ps, P p.2) → P (.obj ps)) :
    ∀ v, P v
  | .undefined => hundefined
  | .null => hnull
  | .bool b => hbool b
  | .num n => hnum n
  | .str s => hstr s
  | .arr xs => harr xs (fun x hx =>
      JSValue.indOn P hundefined hnull hbool hnum hstr harr hobj x)
  | .obj ps => hobj ps (fun p hp =>
      JSValue.indOn P hundefined hnull hbool hnum hstr harr hobj p.2)
termination_by v => sizeOf v
decreasing_by
  · have h := List.sizeOf_lt_of_mem hx
    simp only [JSValue.arr.sizeOf_spec]
    omega
  · have h := List.sizeOf_lt_of_mem hp
    obtain ⟨a, b⟩ := p
    simp only [JSValue.obj.sizeOf_spec, Prod.mk.sizeOf_spec] at *
    omega

theorem skipWs_cons_of_not_ws (c : Char) (cs : List Char)
    (h : isWsChar c = false) : skipWs (c :: cs) = c :: cs := by
  simp [skipWs, h]

theorem skipWs_append_ws (w cs : List Char) (h : ∀ c ∈ w, isWsChar c = true) :
    skipWs (w ++ cs) = skipWs cs := by
  induction w with
  | nil => rfl
  | cons c w ih =>
    simp only [List.cons_append, skipWs, h c (List.mem_cons_self c w), if_true]
    exact ih (fun d hd => h d (List.mem_cons_of_mem c hd))

theorem indentC_ws (n : Nat) : ∀ c ∈ indentC n, isWsChar c = true := by
  intro c hc
  have := List.eq_of_mem_replicate (by simpa [indentC] using hc)
  subst this
  decide

theorem dropLit_self (L cs : List Char) : dropLit L (L ++ cs) = some cs := by
  induction L with
  | nil => rfl
  | cons p ps ih => simp [dropLit, ih]

theorem digitChar_isDigit (d : Nat) (h : d < 10) :
    (digitChar d).isDigit = true := by
  interval_cases d <;> decide

theorem digitChar_val (d : Nat) (h : d < 10) : (digitChar d).toNat - 48 = d := by
  interval_cases d <;> decide

theorem isDigit_not_delim (c : Char) (h : c.isDigit = true) :
    c ≠ '{' ∧ c ≠ '[' ∧ c ≠ '"' ∧ c ≠ '-' := by
  refine ⟨?_, ?_, ?_, ?_⟩ <;> (intro hc; subst hc; simp [Char.isDigit] at h)

theorem isDigit_not_ws (c : Char) (h : c.isDigit = true) : isWsChar c = false := by
  by_contra hw
  rw [Bool.not_eq_false] at hw
  simp only [isWsChar, Bool.or_eq_true, decide_eq_true_eq] at hw
  rcases hw with ((h1 | h1) | h1) | h1 <;> (subst h1; exact absurd h (by decide))

theorem isDigit_ne_rbracket (c : Char) (h : c.isDigit = true) : c ≠ ']' := by
  intro hc
  subst hc
  simp [Char.isDigit] at h

theorem parseDigits_stop (rest : List Char) (acc : Nat)
    (h : noDigitHead rest = true) : parseDigits rest acc = (acc, rest) := by
  cases rest with
  | nil => rfl
  | cons c cs =>
    simp only [noDigitHead, Bool.not_eq_eq_eq_not, Bool.not_true] at h
    simp [parseDigits, h]

theorem parseDigits_append (L : List Nat) (hL : ∀ d ∈ L, d < 10) :
    ∀ (acc : Nat) (rest : List Char), noDigitHead rest = true →
    parseDigits (L.map digitChar ++ rest) acc
      = (L.foldl (fun a d => a * 10 + d) acc, rest) := by
  induction L with
  | nil =>
    intro acc rest h
    simpa using parseDigits_stop rest acc h
  | cons d L ih =>
    intro acc rest h
    have hd : d < 10 := hL d (List.mem_cons_self d L)
    simp only [List.map_cons, List.cons_append, parseDigits,
      digitChar_isDigit d hd, if_true, digitChar_val d hd, List.foldl_cons]
    exact ih (fun e he => hL e (List.mem_cons_of_mem d he)) _ rest h

theorem foldl_reverse_ofDigits (L : List Nat) :
    L.reverse.foldl (fun a d => a * 10 + d) 0 = Nat.ofDigits 10 L := by
  rw [List.foldl_reverse]
  induction L with
  | nil => simp [Nat.ofDigits]
  | cons d L ih =>
    simp only [List.foldr_cons, ih, Nat.ofDigits_cons]
    push_cast
    ring

theorem natChars_parse (n : Nat) (rest : List Char) (h : noDigitHead rest = true) :
    parseDigits (natChars n ++ rest) 0 = (n, rest) := by
  by_cases h0 : n = 0
  · subst h0
    simp only [natChars, if_pos rfl, List.cons_append, List.nil_append]
    have : ('0' : Char).isDigit = true := by decide
    simp only [parseDigits, this, if_true]
    simpa using parseDigits_stop rest _ h
  · simp only [natChars, h0, if_false]
    rw [parseDigits_append _ (fun d hd =>
      Nat.digits_lt_base (by norm_num) (by simpa using hd)) 0 rest h]
    rw [foldl_reverse_ofDigits, Nat.ofDigits_digits]

theorem natChars_head (n : Nat) :
    ∃ c t, natChars n = c :: t ∧ c.isDigit = true := by
  by_cases h0 : n = 0
  · subst h0
    exact ⟨'0', [], rfl, by decide⟩
  · have hne : (Nat.digits 10 n).reverse ≠ [] := by
      simp [Nat.digits_ne_nil_iff_ne_zero.mpr h0]
    obtain ⟨d, L, hL⟩ := List.exists_cons_of_ne_nil hne
    refine ⟨digitChar d, L.map digitChar, ?_, ?_⟩
    · simp [natChars, h0, hL]
    · apply digitChar_isDigit
      have hd : d ∈ Nat.digits 10 n := by
        have : d ∈ (Nat.digits 10 n).reverse := by
          rw [hL]; exact List.mem_cons_self _ _
        simpa using this
      exact Nat.digits_lt_base (by norm_num) hd

theorem parseStr_escape (s rest : List Char) :
    parseStr (escStr s ++ '"' :: rest) = some (s, rest) := by
  induction s with
  | nil =>
    have h : escStr [] ++ '"' :: rest = '"' :: rest := by simp [escStr]
    rw [h, parseStr.eq_def]
    simp
  | cons c s ih =>
    have hesc : escStr (c :: s) ++ '"' :: rest
        = escChar c ++ (escStr s ++ '"' :: rest) := by
      simp [escStr]
    rw [hesc]
    by_cases h1 : c = '"'
    · subst h1
      rw [show escChar '"' = ['\\', '"'] from rfl, List.cons_append,
        List.cons_append, List.nil_append, parseStr.eq_def]
      simp [escVal, ih]
    · by_cases h2 : c = '\\'
      · subst h2
        rw [show escChar '\\' = ['\\', '\\'] from rfl, List.cons_append,
          List.cons_append, List.nil_append, parseStr.eq_def]
        simp [escVal, ih]
      · by_cases h3 : c = '\n'
        · subst h3
          rw [show escChar '\n' = ['\\', 'n'] from rfl, List.cons_append,
            List.cons_append, List.nil_append, parseStr.eq_def]
          simp [escVal, ih]
        · by_cases h4 : c = '\t'
          · subst h4
            rw [show escChar '\t' = ['\\', 't'] from rfl, List.cons_append,
              List.cons_append, List.nil_append, parseStr.eq_def]
            simp [escVal, ih]
          · by_cases h5 : c = '\r'
            · subst h5
              rw [show escChar '\r' = ['\\', 'r'] from rfl, List.cons_append,
                List.cons_append, List.nil_append, parseStr.eq_def]
              simp [escVal, ih]
            · rw [show escChar c = [c] by simp [escChar, h1, h2, h3, h4, h5],
                List.singleton_append, parseStr.eq_def]
              simp [h1, h2, ih]

theorem serVal_head (ind : Nat) (v : JSValue) :
    ∃ c t, serVal ind v = c :: t ∧ isWsChar c = false ∧ c ≠ ']' := by
  cases v with
  | undefined => exact ⟨'n', ['u', 'l', 'l'], by simp [serVal], by decide, by decide⟩
  | null => exact ⟨'n', ['u', 'l', 'l'], by simp [serVal], by decide, by decide⟩
  | bool b =>
    cases b with
    | true => exact ⟨'t', ['r', 'u', 'e'], by simp [serVal], by decide, by decide⟩
    | false =>
      exact ⟨'f', ['a', 'l', 's', 'e'], by simp [serVal], by decide, by decide⟩
  | num i =>
    by_cases hi : i < 0
    · exact ⟨'-', natChars i.natAbs, by simp [serVal, intChars, hi],
        by decide, by decide⟩
    · obtain ⟨c, t, hc, hd⟩ := natChars_head i.natAbs
      exact ⟨c, t, by simp [serVal, intChars, hi, hc],
        isDigit_not_ws c hd, isDigit_ne_rbracket c hd⟩
  | str s =>
    exact ⟨'"', escStr s.data ++ ['"'], by simp [serVal], by decide, by decide⟩
  | arr xs =>
    cases xs with
    | nil => exact ⟨'[', [']'], by simp [serVal], by decide, by decide⟩
    | cons x xs =>
      exact ⟨'[', '\n' :: (serItems (ind + 2) x xs ++ '\n' :: (indentC ind ++ [']'])),
        by simp [serVal], by decide, by decide⟩
  | obj ps =>
    cases ps with
    | nil => exact ⟨'{', ['}'], by simp [serVal], by decide, by decide⟩
    | cons p ps =>
      exact ⟨'{', '\n' :: (serMembers (ind + 2) p ps ++ '\n' :: (indentC ind ++ ['}'])),
        by simp [serVal], by decide, by decide⟩

theorem nodes_pos (v : JSValue) : 1 ≤ nodes v := by
  cases v <;> simp [nodes]

theorem nodesList_le_serItems : ∀ (xs : List JSValue) (x : JSValue),
    (∀ y ∈ x :: xs, ∀ ind, nodes y ≤ (serVal ind y).length) →
    ∀ ind, 1 ≤ ind → nodesList (x :: xs) ≤ (serItems ind x xs).length := by
  intro xs
  induction xs with
  | nil =>
    intro x ih ind hind
    have h1 := ih x (List.mem_cons_self x []) ind
    simp only [serItems, nodesList, List.length_append, indentC,
      List.length_replicate]
    omega
  | cons y ys ihl =>
    intro x ih ind hind
    have h1 := ih x (List.mem_cons_self x (y :: ys)) ind
    have h2 := ihl y (fun z hz => ih z (List.mem_cons_of_mem x hz)) ind hind
    simp only [serItems, nodesList, List.length_append, List.length_cons,
      indentC, List.length_replicate] at *
    omega

theorem nodesPairs_le_serMembers : ∀ (ps : List (String × JSValue))
    (p : String × JSValue),
    (∀ q ∈ p :: ps, ∀ ind, nodes q.2 ≤ (serVal ind q.2).length) →
    ∀ ind, nodesPairs (p :: ps) ≤ (serMembers ind p ps).length := by
  intro ps
  induction ps with
  | nil =>
    intro p ih ind
    obtain ⟨k, v⟩ := p
    have h1 := ih (k, v) (List.mem_cons_self _ []) ind
    simp only [serMembers, nodesPairs, List.length_append, List.length_cons,
      indentC, List.length_replicate] at *
    omega
  | cons q qs ihl =>
    intro p ih ind
    obtain ⟨k, v⟩ := p
    have h1 := ih (k, v) (List.mem_cons_self _ (q :: qs)) ind
    have h2 := ihl q (fun z hz => ih z (List.mem_cons_of_mem _ hz)) ind
    simp only [serMembers, nodesPairs, List.length_append, List.length_cons,
      indentC, List.length_replicate] at *
    omega

theorem nodes_le_len (v : JSValue) : ∀ ind, nodes v ≤ (serVal ind v).length := by
  induction v using JSValue.indOn with
  | hundefined => intro ind; simp [serVal, nodes]
  | hnull => intro ind; simp [serVal, nodes]
  | hbool b => intro ind; cases b <;> simp [serVal, nodes]
  | hnum n =>
    intro ind
    obtain ⟨c, t, hc, _⟩ := natChars_head n.natAbs
    by_cases hn : n < 0 <;>
      simp [serVal, nodes, intChars, hn, hc]
  | hstr s => intro ind; simp [serVal, nodes]
  | harr xs ih =>
    intro ind
    cases xs with
    | nil => simp [serVal, nodes, nodesList]
    | cons x xs =>
      have h := nodesList_le_serItems xs x ih (ind + 2) (by omega)
      simp only [serVal, nodes, nodesList, List.length_cons, List.length_append,
        indentC, List.length_replicate] at *
      omega
  | hobj ps ih =>
    intro ind
    cases ps with
    | nil => simp [serVal, nodes, nodesPairs]
    | cons p ps =>
      have h := nodesPairs_le_serMembers ps p ih (ind + 2)
      simp only [serVal, nodes, nodesPairs, List.length_cons, List.length_append,
        indentC, List.length_replicate] at *
      omega

theorem parseF_val_ws (fuel : Nat) (w cs : List Char)
    (h : ∀ c ∈ w, isWsChar c = true) :
    parseF fuel (.val (w ++ cs)) = parseF fuel (.val cs) := by
  cases fuel with
  | zero => rfl
  | succ f => simp [parseF, skipWs_append_ws w cs h]

/-!
## Claims

Each claim of the specification is settled by exactly one theorem below.
-/

/-- **C1**: for every invocation of `runFilter` with non-empty filter text,
exactly one terminal outcome event (`filter-valid` or `filter-invalid`) is
ever emitted for that invocation — never zero, never two — regardless of
whether the synchronous expression path or the asynchronous query fallback
path handles it (the jq promise continuations' events are the tail of the
returned event list). -/
theorem runFilter_one_terminal_event (vmRun : VmSem) (jqRun : JqSem)
    (filter : String) (s : EditorState) (hne : filter.isEmpty = false) :
    ((runFilter vmRun jqRun (some filter) s).2.countP
      (fun e => e.isTerminal)) = 1 := by
  simp only [runFilter, hne, Bool.false_eq_true, if_false]
  cases hv : vmRun ("result = x" ++ filter) s.data with
  | ok p =>
    obtain ⟨d, r⟩ := p
    by_cases ht : r.truthy <;>
      simp [ht, List.countP, List.countP.go, Event.isTerminal]
  | error e =>
    cases hj : jqRun filter s.data with
    | ok r =>
      by_cases hn : r.isNull <;>
        simp [hn, List.countP, List.countP.go, Event.isTerminal]
    | error e2 => simp [List.countP, List.countP.go, Event.isTerminal]

/-- **C1 witness**: a concrete invocation (expression path succeeds). -/
theorem runFilter_one_terminal_event_witness :
    ((runFilter vmRunChain jqReject (some ".a") ⟨JSValue.null⟩).2.countP
      (fun e => e.isTerminal)) = 1 :=
  runFilter_one_terminal_event vmRunChain jqReject ".a" ⟨JSValue.null⟩ rfl

/-- **C2**: for every editor text, if it parses under the (permissive
JSON-superset) parser then `validate` stores the parsed value as the
Document, emits `input-valid` exactly once and returns true; if parsing
fails, `validate` sets the Document to null, emits nothing and returns
false.  The embedding of `validate` is a total function — the try/catch of
the source swallows the parser's exception, which the parser parameter
models as `none` — so no exception escapes. -/
theorem validate_spec (parse : String → Option JSValue) (input : String)
    (s : EditorState) :
    (∀ v, parse input = some v →
      validate parse input s = ({ s with data := v }, [Event.inputValid], true)) ∧
    (parse input = none →
      validate parse input s = ({ s with data := JSValue.null }, [], false)) := by
  constructor
  · intro v hv
    simp [validate, hv]
  · intro hv
    simp [validate, hv]

/-- **C2 witness**: a parse success and a parse failure, concretely. -/
theorem validate_spec_witness :
    validate jsonParse "[1]" initState
      = (⟨JSValue.arr [JSValue.num 1]⟩, [Event.inputValid], true) ∧
    validate jsonParse "[" initState = (⟨JSValue.null⟩, [], false) :=
  ⟨(validate_spec jsonParse "[1]" initState).1 (JSValue.arr [JSValue.num 1]) rfl,
   (validate_spec jsonParse "[" initState).2 rfl⟩

/-- **C3**: for every non-empty filter text whose expression evaluation
throws, `runFilter` invokes the query evaluator with the filter text and the
current Document, and: a null query result yields `filter-invalid`; a
non-null query result yields `filter-valid` with that result and the query
evaluator tag (the source's type `jq`); a query rejection yields
`filter-invalid`. -/
theorem runFilter_query_fallback (vmRun : VmSem) (jqRun : JqSem)
    (filter : String) (s : EditorState) (hne : filter.isEmpty = false)
    (hvm : vmRun ("result = x" ++ filter) s.data = .error ()) :
    (∀ r, jqRun filter s.data = .ok r → r.isNull = true →
      (runFilter vmRun jqRun (some filter) s).2 = [Event.filterInvalid]) ∧
    (∀ r, jqRun filter s.data = .ok r → r.isNull = false →
      (runFilter vmRun jqRun (some filter) s).2 = [Event.filterValid r "jq"]) ∧
    (jqRun filter s.data = .error () →
      (runFilter vmRun jqRun (some filter) s).2 = [Event.filterInvalid]) := by
  refine ⟨?_, ?_, ?_⟩
  · intro r hj hn
    simp [runFilter, hne, hvm, hj, hn]
  · intro r hj hn
    simp [runFilter, hne, hvm, hj, hn]
  · intro hj
    simp [runFilter, hne, hvm, hj]

/-- **C3 witness**: the three query outcomes, concretely. -/
theorem runFilter_query_fallback_witness :
    (runFilter vmThrow (jqConst JSValue.null) (some "x") ⟨JSValue.null⟩).2
      = [Event.filterInvalid] ∧
    (runFilter vmThrow (jqConst (JSValue.num 1)) (some "x") ⟨JSValue.null⟩).2
      = [Event.filterValid (JSValue.num 1) "jq"] ∧
    (runFilter vmThrow jqReject (some "x") ⟨JSValue.null⟩).2
      = [Event.filterInvalid] :=
  ⟨(runFilter_query_fallback vmThrow (jqConst JSValue.null) "x" ⟨JSValue.null⟩
      rfl rfl).1 JSValue.null rfl rfl,
   (runFilter_query_fallback vmThrow (jqConst (JSValue.num 1)) "x" ⟨JSValue.null⟩
      rfl rfl).2.1 (JSValue.num 1) rfl rfl,
   (runFilter_query_fallback vmThrow jqReject "x" ⟨JSValue.null⟩
      rfl rfl).2.2 rfl⟩

/-- **C4**: for every non-empty filter text whose expression evaluation
succeeds with a truthy result, `runFilter` emits `filter-valid` carrying
that result and the expression-evaluator tag (the source's type `js`). -/
theorem runFilter_expression_valid (vmRun : VmSem) (jqRun : JqSem)
    (filter : String) (s : EditorState) (docAfter r : JSValue)
    (hne : filter.isEmpty = false)
    (hvm : vmRun ("result = x" ++ filter) s.data = .ok (docAfter, r))
    (ht : r.truthy = true) :
    (runFilter vmRun jqRun (some filter) s).2 = [Event.filterValid r "js"] := by
  simp [runFilter, hne, hvm, ht]

/-- **C4 witness**: with Document `{"a":{"b":[1,2,3]}}` and filter text
`.a.b[1]`, `runFilter` emits `filter-valid` with result 2 and the
expression-evaluator tag. -/
theorem runFilter_expression_valid_witness :
    (runFilter vmRunChain jqReject (some ".a.b[1]")
      ⟨JSValue.obj [("a", JSValue.obj [("b",
        JSValue.arr [JSValue.num 1, JSValue.num 2, JSValue.num 3])])]⟩).2
      = [Event.filterValid (JSValue.num 2) "js"] :=
  runFilter_expression_valid vmRunChain jqReject ".a.b[1]"
    ⟨JSValue.obj [("a", JSValue.obj [("b",
      JSValue.arr [JSValue.num 1, JSValue.num 2, JSValue.num 3])])]⟩
    (JSValue.obj [("a", JSValue.obj [("b",
      JSValue.arr [JSValue.num 1, JSValue.num 2, JSValue.num 3])])])
    (JSValue.num 2) rfl rfl rfl

/-- **C5**: for every non-empty filter text whose expression evaluation
succeeds with a falsy or null result (including defined falsy values such as
0, the empty string, or the undefined produced by a soft-failing property
access), `runFilter` emits `filter-invalid` and does not invoke the query
fallback: the entire outcome is the same for every query evaluator. -/
theorem runFilter_expression_falsy (vmRun : VmSem) (filter : String)
    (s : EditorState) (docAfter r : JSValue) (hne : filter.isEmpty = false)
    (hvm : vmRun ("result = x" ++ filter) s.data = .ok (docAfter, r))
    (ht : r.truthy = false) :
    ∀ jqRun : JqSem, runFilter vmRun jqRun (some filter) s
      = ({ s with data := docAfter }, [Event.filterInvalid]) := by
  intro jqRun
  simp [runFilter, hne, hvm, ht]

/-- **C5 witness**: with Document `{"a":1}` and filter text `.b` (a
soft-failing undefined-property access), `runFilter` emits `filter-invalid`
(with the query evaluator never consulted — here one that would reject). -/
theorem runFilter_expression_falsy_witness :
    runFilter vmRunChain jqReject (some ".b") ⟨JSValue.obj [("a", JSValue.num 1)]⟩
      = (⟨JSValue.obj [("a", JSValue.num 1)]⟩, [Event.filterInvalid]) :=
  runFilter_expression_falsy vmRunChain ".b" ⟨JSValue.obj [("a", JSValue.num 1)]⟩
    (JSValue.obj [("a", JSValue.num 1)]) JSValue.undefined rfl rfl rfl jqReject

/-- **C7**: whenever the emptiness guard `!filter || !filter.length` holds —
the filter text is absent or empty — `runFilter` emits exactly
`filter-empty` and leaves the state unchanged, for every Document state and
without consulting either evaluator (the result is the same for all
evaluators, which are universally quantified). -/
theorem runFilter_empty_filter (vmRun : VmSem) (jqRun : JqSem)
    (fv : Option String) (s : EditorState) (h : emptyFilter fv = true) :
    runFilter vmRun jqRun fv s = (s, [Event.filterEmpty]) := by
  cases fv with
  | none => rfl
  | some f =>
    simp only [emptyFilter] at h
    simp [runFilter, h]

/-- **C7 witness**: absent and empty filter text, concretely, under
different Document states and evaluators. -/
theorem runFilter_empty_filter_witness :
    runFilter vmRunChain jqReject none ⟨JSValue.num 1⟩
      = (⟨JSValue.num 1⟩, [Event.filterEmpty]) ∧
    runFilter vmThrow (jqConst JSValue.null) (some "") initState
      = (initState, [Event.filterEmpty]) :=
  ⟨runFilter_empty_filter vmRunChain jqReject none ⟨JSValue.num 1⟩ rfl,
   runFilter_empty_filter vmThrow (jqConst JSValue.null) (some "") initState rfl⟩

/-- **C6 counterexample**: the editor text `null` parses successfully —
`validate` stores the parsed document, emits `input-valid` and returns
true — yet `formatInput` in the resulting state is a no-op, because the
presence check `null !== this.data` conflates a successfully parsed null
document with an absent one.  This refutes the claim that `formatInput`
replaces the editor content whenever the last parse succeeded. -/
theorem formatInput_parsed_null_noop :
    (validate jsonParse "null" initState).2.2 = true ∧
    (validate jsonParse "null" initState).2.1 = [Event.inputValid] ∧
    formatInput (validate jsonParse "null" initState).1 = FormatAction.noop :=
  ⟨rfl, rfl, rfl⟩

/-- **C6 (amended)**: `formatInput` replaces the editor surface's full
content with the indented re-serialization of the Document exactly when the
Document field is not the JavaScript value null; when it is null — whether
from a parse failure or from a successful parse of the text `null` — it is a
no-op. -/
theorem formatInput_spec (s : EditorState) :
    (s.data.isNull = true → formatInput s = FormatAction.noop) ∧
    (s.data.isNull = false →
      formatInput s = FormatAction.setValue (stringify s.data)) := by
  constructor <;> intro h <;> simp [formatInput, h]

/-- **C6 witness**: both branches of the amended claim, concretely. -/
theorem formatInput_spec_witness :
    formatInput ⟨JSValue.null⟩ = FormatAction.noop ∧
    formatInput ⟨JSValue.num 1⟩ = FormatAction.setValue (stringify (JSValue.num 1)) :=
  ⟨(formatInput_spec ⟨JSValue.null⟩).1 rfl, (formatInput_spec ⟨JSValue.num 1⟩).2 rfl⟩

/-- **C9 counterexample**: with Document `{"a":1}` and filter text `.a=5`,
the script `result = x.a=5` run by the vm evaluator assigns through the
sandbox binding `x: this.data` (Editor.js line 140) and mutates the object
the Document refers to: after `runFilter` the Document value is no longer
`{"a":1}`.  This refutes the claim that the Document value is unchanged by
every `runFilter` invocation. -/
theorem runFilter_document_mutated :
    (runFilter vmAssignA jqReject (some ".a=5")
      ⟨JSValue.obj [("a", JSValue.num 1)]⟩).1.data
      ≠ JSValue.obj [("a", JSValue.num 1)] := by
  have h : (runFilter vmAssignA jqReject (some ".a=5")
      ⟨JSValue.obj [("a", JSValue.num 1)]⟩).1.data
      = JSValue.obj [("a", JSValue.num 5)] := rfl
  rw [h]
  simp

/-- **C9 (amended)**: `runFilter` never reassigns the Document field itself
(only `validate` does), so for every expression evaluation that does not
mutate the object bound into the sandbox, the Document — field and value —
is the same after the run as before.  Mutation is possible only through the
sandbox binding `x: this.data`, as the counterexample shows. -/
theorem runFilter_data_unchanged (vmRun : VmSem) (jqRun : JqSem)
    (fv : Option String) (s : EditorState)
    (hpure : ∀ code doc docAfter r,
      vmRun code doc = .ok (docAfter, r) → docAfter = doc) :
    (runFilter vmRun jqRun fv s).1 = s := by
  cases fv with
  | none => rfl
  | some f =>
    by_cases he : f.isEmpty
    · simp [runFilter, he]
    · simp only [runFilter, he, Bool.false_eq_true, if_false]
      cases hv : vmRun ("result = x" ++ f) s.data with
      | ok p =>
        obtain ⟨d, r⟩ := p
        obtain rfl : d = s.data := hpure _ _ _ _ hv
        by_cases ht : r.truthy <;> simp [ht]
      | error e =>
        cases hj : jqRun f s.data with
        | ok r => by_cases hn : r.isNull <;> simp [hn]
        | error e2 => simp

/-- **C9 (amended) witness**: a non-mutating evaluator (the access-chain
instance) leaves the state untouched, concretely. -/
theorem runFilter_data_unchanged_witness :
    (runFilter vmRunChain jqReject (some ".a") ⟨JSValue.null⟩).1
      = ⟨JSValue.null⟩ :=
  runFilter_data_unchanged vmRunChain jqReject (some ".a") ⟨JSValue.null⟩
    (fun code doc docAfter r h => vmRunChain_pure code doc docAfter r h)

/-- **C10**: in the initial state — before any call to `validate` — the
Document field is `undefined` rather than the `null` that represents
absence; `formatInput`'s presence check `null !== this.data` therefore
treats this state as present, and `formatInput` invokes the editor's
`setValue` with the serialization of `undefined` (which is the JavaScript
value undefined, i.e. `none`) instead of being a no-op. -/
theorem formatInput_initial_state :
    initState.data = JSValue.undefined ∧
    JSValue.isNull initState.data = false ∧
    formatInput initState = FormatAction.setValue (stringify JSValue.undefined) ∧
    stringify JSValue.undefined = none ∧
    formatInput initState ≠ FormatAction.noop := by
  refine ⟨rfl, rfl, rfl, rfl, ?_⟩
  intro h
  have h2 : formatInput initState = FormatAction.setValue none := rfl
  rw [h2] at h
  exact FormatAction.noConfusion h

theorem wfList_cons_iff (x : JSValue) (xs : List JSValue) :
    wfList (x :: xs) = true ↔ wf x = true ∧ wfList xs = true := by
  simp [wfList]

theorem roundtrip_elems : ∀ (xs : List JSValue) (x : JSValue)
    (IH : ∀ y ∈ x :: xs, wf y = true → ∀ ind rest fuel,
      noDigitHead rest = true → 3 * nodes y ≤ fuel →
      parseF fuel (.val (serVal ind y ++ rest)) = some (y, rest))
    (hwf : wfList (x :: xs) = true)
    (j : Nat) (acc : List JSValue) (w0 w rest : List Char) (fuel : Nat)
    (hw0 : ∀ c ∈ w0, isWsChar c = true) (hw : ∀ c ∈ w, isWsChar c = true)
    (hfuel : 3 * nodesList (x :: xs) ≤ fuel + 1),
    parseF fuel (.elems (w0 ++ (serItems j x xs ++ '\n' :: (w ++ ']' :: rest))) acc)
      = some (JSValue.arr (acc.reverse ++ x :: xs), rest) := by
  intro xs
  induction xs with
  | nil =>
    intro x IH hwf j acc w0 w rest fuel hw0 hw hfuel
    have hwx : wf x = true := ((wfList_cons_iff x []).mp hwf).1
    have hnx := nodes_pos x
    have hnl : nodesList (x :: []) = nodes x + 1 := by simp [nodesList]
    obtain ⟨g, rfl⟩ : ∃ g, fuel = g + 1 := ⟨fuel - 1, by omega⟩
    have hval : parseF g (.val (w0 ++ (serItems j x [] ++ '\n' :: (w ++ ']' :: rest))))
        = some (x, '\n' :: (w ++ ']' :: rest)) := by
      have h1 : w0 ++ (serItems j x [] ++ '\n' :: (w ++ ']' :: rest))
          = w0 ++ (indentC j ++ (serVal j x ++ ('\n' :: (w ++ ']' :: rest)))) := by
        simp [serItems]
      rw [h1, parseF_val_ws _ _ _ hw0, parseF_val_ws _ _ _ (indentC_ws j)]
      exact IH x (List.mem_cons_self x []) hwx j _ g (by simp [noDigitHead]) (by omega)
    simp only [parseF, hval]
    have hskip : skipWs ('\n' :: (w ++ ']' :: rest)) = ']' :: rest := by
      rw [show ('\n' :: (w ++ ']' :: rest)) = ('\n' :: w) ++ (']' :: rest) by simp]
      rw [skipWs_append_ws _ _ ?hws]
      · exact skipWs_cons_of_not_ws _ _ (by decide)
      case hws =>
        intro c hc
        rcases List.mem_cons.mp hc with h | h
        · subst h; decide
        · exact hw c h
    rw [hskip]
    simp
  | cons y ys ihl =>
    intro x IH hwf j acc w0 w rest fuel hw0 hw hfuel
    have hwx : wf x = true := ((wfList_cons_iff x (y :: ys)).mp hwf).1
    have hwyl : wfList (y :: ys) = true := ((wfList_cons_iff x (y :: ys)).mp hwf).2
    have hnx := nodes_pos x
    have hny := nodes_pos y
    have hnl : nodesList (x :: y :: ys) = nodes x + nodesList (y :: ys) + 1 := by
      simp [nodesList]
    have hnl2 : nodesList (y :: ys) = nodes y + nodesList ys + 1 := by
      simp [nodesList]
    obtain ⟨g, rfl⟩ : ∃ g, fuel = g + 1 := ⟨fuel - 1, by omega⟩
    have hval : parseF g (.val (w0 ++ (serItems j x (y :: ys) ++ '\n' :: (w ++ ']' :: rest))))
        = some (x, ',' :: '\n' :: (serItems j y ys ++ '\n' :: (w ++ ']' :: rest))) := by
      have h1 : w0 ++ (serItems j x (y :: ys) ++ '\n' :: (w ++ ']' :: rest))
          = w0 ++ (indentC j ++ (serVal j x
            ++ (',' :: '\n' :: (serItems j y ys ++ '\n' :: (w ++ ']' :: rest))))) := by
        simp [serItems]
      rw [h1, parseF_val_ws _ _ _ hw0, parseF_val_ws _ _ _ (indentC_ws j)]
      exact IH x (List.mem_cons_self x (y :: ys)) hwx j _ g
        (by simp [noDigitHead]) (by omega)
    simp only [parseF, hval]
    have hskip : skipWs (',' :: '\n' :: (serItems j y ys ++ '\n' :: (w ++ ']' :: rest)))
        = ',' :: '\n' :: (serItems j y ys ++ '\n' :: (w ++ ']' :: rest)) :=
      skipWs_cons_of_not_ws _ _ (by decide)
    rw [hskip]
    have hrec := ihl y (fun z hz => IH z (List.mem_cons_of_mem x hz)) hwyl j
      (x :: acc) ['\n'] w rest g (by intro c hc; simp at hc; subst hc; decide) hw
      (by omega)
    simp only [List.singleton_append] at hrec
    simp [hrec]

theorem wfPairs_cons_iff (k : String) (v : JSValue) (ps : List (String × JSValue)) :
    wfPairs ((k, v) :: ps) = true ↔ wf v = true ∧ wfPairs ps = true := by
  simp [wfPairs]

theorem roundtrip_members : ∀ (ps : List (String × JSValue)) (p : String × JSValue)
    (IH : ∀ q ∈ p :: ps, wf q.2 = true → ∀ ind rest fuel,
      noDigitHead rest = true → 3 * nodes q.2 ≤ fuel →
      parseF fuel (.val (serVal ind q.2 ++ rest)) = some (q.2, rest))
    (hwf : wfPairs (p :: ps) = true)
    (j : Nat) (acc : List (String × JSValue)) (w0 w rest : List Char) (fuel : Nat)
    (hw0 : ∀ c ∈ w0, isWsChar c = true) (hw : ∀ c ∈ w, isWsChar c = true)
    (hfuel : 3 * nodesPairs (p :: ps) ≤ fuel + 1),
    parseF fuel (.members (w0 ++ (serMembers j p ps ++ '\n' :: (w ++ '}' :: rest))) acc)
      = some (JSValue.obj (acc.reverse ++ p :: ps), rest) := by
  intro ps
  induction ps with
  | nil =>
    intro p IH hwf j acc w0 w rest fuel hw0 hw hfuel
    obtain ⟨k, v⟩ := p
    have hwv : wf v = true := ((wfPairs_cons_iff k v []).mp hwf).1
    have hnv := nodes_pos v
    have hnp : nodesPairs ((k, v) :: []) = nodes v + 1 := by simp [nodesPairs]
    obtain ⟨g, rfl⟩ : ∃ g, fuel = g + 1 := ⟨fuel - 1, by omega⟩
    have hcs : w0 ++ (serMembers j (k, v) [] ++ '\n' :: (w ++ '}' :: rest))
        = (w0 ++ indentC j) ++ ('"' :: (escStr k.data
          ++ ('"' :: ':' :: ' ' :: (serVal j v ++ ('\n' :: (w ++ '}' :: rest)))))) := by
      simp [serMembers]
    have hskip0 : skipWs ((w0 ++ indentC j) ++ ('"' :: (escStr k.data
          ++ ('"' :: ':' :: ' ' :: (serVal j v ++ ('\n' :: (w ++ '}' :: rest)))))))
        = '"' :: (escStr k.data
          ++ ('"' :: ':' :: ' ' :: (serVal j v ++ ('\n' :: (w ++ '}' :: rest))))) := by
      rw [skipWs_append_ws _ _ ?hws]
      · exact skipWs_cons_of_not_ws _ _ (by decide)
      case hws =>
        intro c hc
        rcases List.mem_append.mp hc with h | h
        · exact hw0 c h
        · exact indentC_ws j c h
    have hstr : parseStr (escStr k.data
          ++ ('"' :: ':' :: ' ' :: (serVal j v ++ ('\n' :: (w ++ '}' :: rest)))))
        = some (k.data, ':' :: ' ' :: (serVal j v ++ ('\n' :: (w ++ '}' :: rest)))) :=
      parseStr_escape k.data _
    have hskip1 : skipWs (':' :: ' ' :: (serVal j v ++ ('\n' :: (w ++ '}' :: rest))))
        = ':' :: ' ' :: (serVal j v ++ ('\n' :: (w ++ '}' :: rest))) :=
      skipWs_cons_of_not_ws _ _ (by decide)
    have hval : parseF g (.val (' ' :: (serVal j v ++ ('\n' :: (w ++ '}' :: rest)))))
        = some (v, '\n' :: (w ++ '}' :: rest)) := by
      rw [show (' ' :: (serVal j v ++ ('\n' :: (w ++ '}' :: rest))))
          = [' '] ++ (serVal j v ++ ('\n' :: (w ++ '}' :: rest))) by simp]
      rw [parseF_val_ws _ _ _ (by intro c hc; simp at hc; subst hc; decide)]
      exact IH (k, v) (List.mem_cons_self _ []) hwv j _ g (by simp [noDigitHead])
        (by show 3 * nodes v ≤ g; omega)
    have hskip2 : skipWs ('\n' :: (w ++ '}' :: rest)) = '}' :: rest := by
      rw [show ('\n' :: (w ++ '}' :: rest)) = ('\n' :: w) ++ ('}' :: rest) by simp]
      rw [skipWs_append_ws _ _ ?hws2]
      · exact skipWs_cons_of_not_ws _ _ (by decide)
      case hws2 =>
        intro c hc
        rcases List.mem_cons.mp hc with h | h
        · subst h; decide
        · exact hw c h
    rw [hcs]
    simp only [parseF, hskip0, hstr, hskip1, hval, hskip2]
    simp [show String.mk k.data = k from rfl]
  | cons q qs ihl =>
    intro p IH hwf j acc w0 w rest fuel hw0 hw hfuel
    obtain ⟨k, v⟩ := p
    have hwv : wf v = true := ((wfPairs_cons_iff k v (q :: qs)).mp hwf).1
    have hwql : wfPairs (q :: qs) = true := ((wfPairs_cons_iff k v (q :: qs)).mp hwf).2
    have hnv := nodes_pos v
    have hnq := nodes_pos q.2
    have hnp : nodesPairs ((k, v) :: q :: qs) = nodes v + nodesPairs (q :: qs) + 1 := by
      simp [nodesPairs]
    have hnp2 : nodesPairs (q :: qs) = nodes q.2 + nodesPairs qs + 1 := by
      obtain ⟨a, b⟩ := q
      simp [nodesPairs]
    obtain ⟨g, rfl⟩ : ∃ g, fuel = g + 1 := ⟨fuel - 1, by omega⟩
    have hcs : w0 ++ (serMembers j (k, v) (q :: qs) ++ '\n' :: (w ++ '}' :: rest))
        = (w0 ++ indentC j) ++ ('"' :: (escStr k.data
          ++ ('"' :: ':' :: ' ' :: (serVal j v ++ (',' :: '\n' ::
            (serMembers j q qs ++ '\n' :: (w ++ '}' :: rest))))))) := by
      simp [serMembers]
    have hskip0 : skipWs ((w0 ++ indentC j) ++ ('"' :: (escStr k.data
          ++ ('"' :: ':' :: ' ' :: (serVal j v ++ (',' :: '\n' ::
            (serMembers j q qs ++ '\n' :: (w ++ '}' :: rest))))))))
        = '"' :: (escStr k.data
          ++ ('"' :: ':' :: ' ' :: (serVal j v ++ (',' :: '\n' ::
            (serMembers j q qs ++ '\n' :: (w ++ '}' :: rest)))))) := by
      rw [skipWs_append_ws _ _ ?hws]
      · exact skipWs_cons_of_not_ws _ _ (by decide)
      case hws =>
        intro c hc
        rcases List.mem_append.mp hc with h | h
        · exact hw0 c h
        · exact indentC_ws j c h
    have hstr : parseStr (escStr k.data
          ++ ('"' :: ':' :: ' ' :: (serVal j v ++ (',' :: '\n' ::
            (serMembers j q qs ++ '\n' :: (w ++ '}' :: rest))))))
        = some (k.data, ':' :: ' ' :: (serVal j v ++ (',' :: '\n' ::
            (serMembers j q qs ++ '\n' :: (w ++ '}' :: rest))))) :=
      parseStr_escape k.data _
    have hskip1 : skipWs (':' :: ' ' :: (serVal j v ++ (',' :: '\n' ::
            (serMembers j q qs ++ '\n' :: (w ++ '}' :: rest)))))
        = ':' :: ' ' :: (serVal j v ++ (',' :: '\n' ::
            (serMembers j q qs ++ '\n' :: (w ++ '}' :: rest)))) :=
      skipWs_cons_of_not_ws _ _ (by decide)
    have hval : parseF g (.val (' ' :: (serVal j v ++ (',' :: '\n' ::
            (serMembers j q qs ++ '\n' :: (w ++ '}' :: rest))))))
        = some (v, ',' :: '\n' :: (serMembers j q qs ++ '\n' :: (w ++ '}' :: rest))) := by
      rw [show (' ' :: (serVal j v ++ (',' :: '\n' ::
            (serMembers j q qs ++ '\n' :: (w ++ '}' :: rest)))))
          = [' '] ++ (serVal j v ++ (',' :: '\n' ::
            (serMembers j q qs ++ '\n' :: (w ++ '}' :: rest)))) by simp]
      rw [parseF_val_ws _ _ _ (by intro c hc; simp at hc; subst hc; decide)]
      exact IH (k, v) (List.mem_cons_self _ (q :: qs)) hwv j _ g
        (by simp [noDigitHead]) (by show 3 * nodes v ≤ g; omega)
    have hskip2 : skipWs (',' :: '\n' :: (serMembers j q qs ++ '\n' :: (w ++ '}' :: rest)))
        = ',' :: '\n' :: (serMembers j q qs ++ '\n' :: (w ++ '}' :: rest)) :=
      skipWs_cons_of_not_ws _ _ (by decide)
    have hrec := ihl q (fun z hz => IH z (List.mem_cons_of_mem _ hz)) hwql j
      ((String.mk k.data, v) :: acc) ['\n'] w rest g
      (by intro c hc; simp at hc; subst hc; decide) hw (by omega)
    simp only [List.singleton_append] at hrec
    rw [hcs]
    simp only [parseF, hskip0, hstr, hskip1, hval, hskip2]
    simp [hrec, show String.mk k.data = k from rfl]

theorem roundtrip_val (v : JSValue) : wf v = true → ∀ ind rest fuel,
    noDigitHead rest = true → 3 * nodes v ≤ fuel →
    parseF fuel (.val (serVal ind v ++ rest)) = some (v, rest) := by
  induction v using JSValue.indOn with
  | hundefined => intro hwf; simp [wf] at hwf
  | hnull =>
    intro _ ind rest fuel hnd hfuel
    have h1 : nodes JSValue.null = 1 := by simp [nodes]
    obtain ⟨f, rfl⟩ : ∃ f, fuel = f + 1 := ⟨fuel - 1, by omega⟩
    obtain ⟨g, rfl⟩ : ∃ g, f = g + 1 := ⟨f - 1, by omega⟩
    have hser : serVal ind JSValue.null = ['n', 'u', 'l', 'l'] := by simp [serVal]
    rw [hser]
    simp [parseF, skipWs, isWsChar, Char.isDigit, dropLit]
  | hbool b =>
    intro _ ind rest fuel hnd hfuel
    have h1 : nodes (JSValue.bool b) = 1 := by simp [nodes]
    obtain ⟨f, rfl⟩ : ∃ f, fuel = f + 1 := ⟨fuel - 1, by omega⟩
    obtain ⟨g, rfl⟩ : ∃ g, f = g + 1 := ⟨f - 1, by omega⟩
    cases b with
    | true =>
      have hser : serVal ind (JSValue.bool true) = ['t', 'r', 'u', 'e'] := by
        simp [serVal]
      rw [hser]
      simp [parseF, skipWs, isWsChar, Char.isDigit, dropLit]
    | false =>
      have hser : serVal ind (JSValue.bool false) = ['f', 'a', 'l', 's', 'e'] := by
        simp [serVal]
      rw [hser]
      simp [parseF, skipWs, isWsChar, Char.isDigit, dropLit]
  | hnum n =>
    intro _ ind rest fuel hnd hfuel
    have h1 : nodes (JSValue.num n) = 1 := by simp [nodes]
    obtain ⟨f, rfl⟩ : ∃ f, fuel = f + 1 := ⟨fuel - 1, by omega⟩
    obtain ⟨g, rfl⟩ : ∃ g, f = g + 1 := ⟨f - 1, by omega⟩
    have hser : serVal ind (JSValue.num n) = intChars n := by simp [serVal]
    rw [hser]
    obtain ⟨c0, t0, hc0, hd0⟩ := natChars_head n.natAbs
    have hpd : parseDigits (natChars n.natAbs ++ rest) 0 = (n.natAbs, rest) :=
      natChars_parse _ rest hnd
    by_cases hn : n < 0
    · have hic : intChars n = '-' :: natChars n.natAbs := by simp [intChars, hn]
      rw [hic, hc0]
      have hpd' : parseDigits (c0 :: (t0 ++ rest)) 0 = (n.natAbs, rest) := by
        rw [← List.cons_append, ← hc0]
        exact hpd
      have hneg : -((n.natAbs : Nat) : Int) = n := by omega
      have hneg2 : -|n| = n := by
        rw [abs_of_nonpos (le_of_lt hn)]
        ring
      simp only [parseF, List.cons_append]
      simp [hd0, hpd', hneg, hneg2]
    · have hic : intChars n = natChars n.natAbs := by simp [intChars, hn]
      rw [hic, hc0]
      obtain ⟨hne1, hne2, hne3, hne4⟩ := isDigit_not_delim c0 hd0
      have hpd' : parseDigits (c0 :: (t0 ++ rest)) 0 = (n.natAbs, rest) := by
        rw [← List.cons_append, ← hc0]
        exact hpd
      have hpos : ((n.natAbs : Nat) : Int) = n := by omega
      simp only [parseF, List.cons_append]
      rw [skipWs_cons_of_not_ws _ _ (isDigit_not_ws c0 hd0)]
      simp only [parseF]
      simp [hne1, hne2, hne3, hne4, hd0, hpd', hpos]
  | hstr s =>
    intro _ ind rest fuel hnd hfuel
    have h1 : nodes (JSValue.str s) = 1 := by simp [nodes]
    obtain ⟨f, rfl⟩ : ∃ f, fuel = f + 1 := ⟨fuel - 1, by omega⟩
    obtain ⟨g, rfl⟩ : ∃ g, f = g + 1 := ⟨f - 1, by omega⟩
    have hform : serVal ind (JSValue.str s) ++ rest
        = '"' :: (escStr s.data ++ ('"' :: rest)) := by
      simp [serVal]
    rw [hform]
    simp only [parseF]
    simp [parseStr_escape, show String.mk s.data = s from rfl]
  | harr xs ih =>
    intro hwf ind rest fuel hnd hfuel
    cases xs with
    | nil =>
      have h1 : nodes (JSValue.arr []) = 1 := by simp [nodes, nodesList]
      obtain ⟨f, rfl⟩ : ∃ f, fuel = f + 1 := ⟨fuel - 1, by omega⟩
      obtain ⟨g, rfl⟩ : ∃ g, f = g + 1 := ⟨f - 1, by omega⟩
      have hser : serVal ind (JSValue.arr []) = ['[', ']'] := by simp [serVal]
      rw [hser]
      simp [parseF, skipWs, isWsChar, Char.isDigit]
    | cons x xs =>
      have hwl : wfList (x :: xs) = true := by simpa [wf] using hwf
      have hn1 : nodes (JSValue.arr (x :: xs)) = nodesList (x :: xs) + 1 := by
        simp [nodes]
      have hnl2 : nodesList (x :: xs) = nodes x + nodesList xs + 1 := by
        simp [nodesList]
      have hnx := nodes_pos x
      obtain ⟨f, rfl⟩ : ∃ f, fuel = f + 1 := ⟨fuel - 1, by omega⟩
      obtain ⟨g, rfl⟩ : ∃ g, f = g + 1 := ⟨f - 1, by omega⟩
      have hform : serVal ind (JSValue.arr (x :: xs)) ++ rest
          = '[' :: ('\n' :: (serItems (ind + 2) x xs
            ++ '\n' :: (indentC ind ++ (']' :: rest)))) := by
        simp [serVal]
      rw [hform]
      simp only [parseF]
      obtain ⟨c0, t0, hc0, hnws0, hnrb0⟩ := serVal_head (ind + 2) x
      obtain ⟨tl, htl⟩ : ∃ tl, serItems (ind + 2) x xs
          = indentC (ind + 2) ++ (serVal (ind + 2) x ++ tl) := by
        cases xs with
        | nil => exact ⟨[], by simp [serItems]⟩
        | cons y ys =>
          exact ⟨',' :: '\n' :: serItems (ind + 2) y ys, by simp [serItems]⟩
      have hskipCS : skipWs ('\n' :: (serItems (ind + 2) x xs
            ++ '\n' :: (indentC ind ++ (']' :: rest))))
          = c0 :: (t0 ++ (tl ++ '\n' :: (indentC ind ++ (']' :: rest)))) := by
        rw [htl, hc0]
        rw [show ('\n' :: ((indentC (ind + 2) ++ ((c0 :: t0) ++ tl))
              ++ '\n' :: (indentC ind ++ (']' :: rest))))
            = ('\n' :: indentC (ind + 2))
              ++ (c0 :: (t0 ++ (tl ++ '\n' :: (indentC ind ++ (']' :: rest)))))
          by simp]
        rw [skipWs_append_ws _ _ ?hws3]
        · exact skipWs_cons_of_not_ws _ _ hnws0
        case hws3 =>
          intro c hc
          rcases List.mem_cons.mp hc with h | h
          · subst h; decide
          · exact indentC_ws _ c h
      rw [hskipCS]
      have helems := roundtrip_elems xs x ih hwl (ind + 2) [] ['\n']
        (indentC ind) rest g (by intro c hc; simp at hc; subst hc; decide)
        (indentC_ws ind) (by omega)
      simp only [List.singleton_append] at helems
      simp [hnrb0, helems]
  | hobj ps ih =>
    intro hwf ind rest fuel hnd hfuel
    cases ps with
    | nil =>
      have h1 : nodes (JSValue.obj []) = 1 := by simp [nodes, nodesPairs]
      obtain ⟨f, rfl⟩ : ∃ f, fuel = f + 1 := ⟨fuel - 1, by omega⟩
      obtain ⟨g, rfl⟩ : ∃ g, f = g + 1 := ⟨f - 1, by omega⟩
      have hser : serVal ind (JSValue.obj []) = ['{', '}'] := by simp [serVal]
      rw [hser]
      simp [parseF, skipWs, isWsChar, Char.isDigit]
    | cons p ps =>
      have hwl : wfPairs (p :: ps) = true := by simpa [wf] using hwf
      have hn1 : nodes (JSValue.obj (p :: ps)) = nodesPairs (p :: ps) + 1 := by
        simp [nodes]
      have hnl2 : nodesPairs (p :: ps) = nodes p.2 + nodesPairs ps + 1 := by
        obtain ⟨a, b⟩ := p
        simp [nodesPairs]
      have hnx := nodes_pos p.2
      obtain ⟨f, rfl⟩ : ∃ f, fuel = f + 1 := ⟨fuel - 1, by omega⟩
      obtain ⟨g, rfl⟩ : ∃ g, f = g + 1 := ⟨f - 1, by omega⟩
      have hform : serVal ind (JSValue.obj (p :: ps)) ++ rest
          = '{' :: ('\n' :: (serMembers (ind + 2) p ps
            ++ '\n' :: (indentC ind ++ ('}' :: rest)))) := by
        simp [serVal]
      rw [hform]
      simp only [parseF]
      obtain ⟨k, v⟩ := p
      obtain ⟨tl, htl⟩ : ∃ tl, serMembers (ind + 2) (k, v) ps
          = indentC (ind + 2) ++ ('"' :: tl) := by
        cases ps with
        | nil =>
          exact ⟨escStr k.data ++ '"' :: ':' :: ' ' :: serVal (ind + 2) v,
            by simp [serMembers]⟩
        | cons q qs =>
          exact ⟨escStr k.data ++ '"' :: ':' :: ' ' :: (serVal (ind + 2) v
            ++ ',' :: '\n' :: serMembers (ind + 2) q qs), by simp [serMembers]⟩
      have hskipCS : skipWs ('\n' :: (serMembers (ind + 2) (k, v) ps
            ++ '\n' :: (indentC ind ++ '}' :: rest)))
          = '"' :: (tl ++ '\n' :: (indentC ind ++ '}' :: rest)) := by
        rw [htl]
        rw [show ('\n' :: ((indentC (ind + 2) ++ ('"' :: tl))
              ++ '\n' :: (indentC ind ++ '}' :: rest)))
            = ('\n' :: indentC (ind + 2))
              ++ ('"' :: (tl ++ '\n' :: (indentC ind ++ '}' :: rest))) by simp]
        rw [skipWs_append_ws _ _ ?hws4]
        · exact skipWs_cons_of_not_ws _ _ (by decide)
        case hws4 =>
          intro c hc
          rcases List.mem_cons.mp hc with h | h
          · subst h; decide
          · exact indentC_ws _ c h
      rw [hskipCS]
      have hmembers := roundtrip_members ps (k, v) ih hwl (ind + 2) [] ['\n']
        (indentC ind) rest g (by intro c hc; simp at hc; subst hc; decide)
        (indentC_ws ind) (by omega)
      simp only [List.singleton_append] at hmembers
      simp [hmembers]

theorem wfList_eq_all (l : List JSValue) : wfList l = l.all wf := by
  induction l with
  | nil => simp [wfList]
  | cons x xs ih => simp [wfList, ih]

theorem wfPairs_eq_all (l : List (String × JSValue)) :
    wfPairs l = l.all (fun p => wf p.2) := by
  induction l with
  | nil => simp [wfPairs]
  | cons p ps ih =>
    obtain ⟨k, v⟩ := p
    simp [wfPairs, ih]

theorem parse_wf : ∀ fuel : Nat,
    (∀ cs out, parseF fuel (.val cs) = some out → wf out.1 = true) ∧
    (∀ cs out, parseF fuel (.core cs) = some out → wf out.1 = true) ∧
    (∀ cs acc out, wfList acc = true →
      parseF fuel (.elems cs acc) = some out → wf out.1 = true) ∧
    (∀ cs acc out, wfPairs acc = true →
      parseF fuel (.members cs acc) = some out → wf out.1 = true) := by
  intro fuel
  induction fuel with
  | zero =>
    refine ⟨?_, ?_, ?_, ?_⟩
    · intro cs out h; simp [parseF] at h
    · intro cs out h; simp [parseF] at h
    · intro cs acc out _ h; simp [parseF] at h
    · intro cs acc out _ h; simp [parseF] at h
  | succ f ih =>
    obtain ⟨ihv, ihc, ihe, ihm⟩ := ih
    refine ⟨?_, ?_, ?_, ?_⟩
    · intro cs out h
      simp only [parseF] at h
      exact ihc _ _ h
    · intro cs out h
      cases cs with
      | nil => simp [parseF] at h
      | cons c cs =>
        simp only [parseF] at h
        by_cases h1 : c = '{'
        · rw [if_pos h1] at h
          cases hs : skipWs cs with
          | nil => rw [hs] at h; simp at h
          | cons d r =>
            rw [hs] at h
            simp only at h
            by_cases hd : d = '}'
            · simp only [if_pos hd, Option.some.injEq] at h
              rw [← h]
              simp [wf, wfPairs]
            · rw [if_neg hd] at h
              exact ihm _ _ _ (by simp [wfPairs]) h
        · rw [if_neg h1] at h
          by_cases h2 : c = '['
          · rw [if_pos h2] at h
            cases hs : skipWs cs with
            | nil => rw [hs] at h; simp at h
            | cons d r =>
              rw [hs] at h
              simp only at h
              by_cases hd : d = ']'
              · simp only [if_pos hd, Option.some.injEq] at h
                rw [← h]
                simp [wf, wfList]
              · rw [if_neg hd] at h
                exact ihe _ _ _ (by simp [wfList]) h
          · rw [if_neg h2] at h
            by_cases h3 : c = '"'
            · rw [if_pos h3] at h
              cases hps : parseStr cs with
              | none => rw [hps] at h; simp at h
              | some p =>
                rw [hps] at h
                obtain ⟨sbody, r⟩ := p
                simp only [Option.some.injEq] at h
                rw [← h]
                simp [wf]
            · rw [if_neg h3] at h
              by_cases h4 : c = '-'
              · rw [if_pos h4] at h
                cases cs with
                | nil => simp at h
                | cons d tail =>
                  simp only at h
                  by_cases hd : d.isDigit = true
                  · simp only [hd, eq_self_iff_true, ite_true,
                      Option.some.injEq] at h
                    rw [← h]
                    simp [wf]
                  · simp only [Bool.not_eq_true] at hd
                    simp [hd] at h
              · rw [if_neg h4] at h
                by_cases h5 : c.isDigit = true
                · simp only [h5, eq_self_iff_true, ite_true,
                    Option.some.injEq] at h
                  rw [← h]
                  simp [wf]
                · simp only [Bool.not_eq_true] at h5
                  simp only [h5, Bool.false_eq_true, if_false] at h
                  cases hd1 : dropLit ['n', 'u', 'l', 'l'] (c :: cs) with
                  | some r =>
                    rw [hd1] at h
                    simp only [Option.some.injEq] at h
                    rw [← h]
                    simp [wf]
                  | none =>
                    rw [hd1] at h
                    simp only at h
                    cases hd2 : dropLit ['t', 'r', 'u', 'e'] (c :: cs) with
                    | some r =>
                      rw [hd2] at h
                      simp only [Option.some.injEq] at h
                      rw [← h]
                      simp [wf]
                    | none =>
                      rw [hd2] at h
                      simp only at h
                      cases hd3 : dropLit ['f', 'a', 'l', 's', 'e'] (c :: cs) with
                      | some r =>
                        rw [hd3] at h
                        simp only [Option.some.injEq] at h
                        rw [← h]
                        simp [wf]
                      | none =>
                        rw [hd3] at h
                        simp at h
    · intro cs acc out hacc h
      simp only [parseF] at h
      cases hv : parseF f (.val cs) with
      | none => rw [hv] at h; simp at h
      | some p =>
        rw [hv] at h
        obtain ⟨v, r⟩ := p
        have hwv : wf v = true := ihv _ _ hv
        simp only at h
        cases hs : skipWs r with
        | nil => rw [hs] at h; simp at h
        | cons d r' =>
          rw [hs] at h
          simp only at h
          by_cases hd : d = ','
          · rw [if_pos hd] at h
            exact ihe _ _ _ (by simp [wfList, hwv, hacc]) h
          · rw [if_neg hd] at h
            by_cases hd2 : d = ']'
            · simp only [if_pos hd2, Option.some.injEq] at h
              rw [← h]
              have hacc2 : acc.all wf = true := by
                rw [← wfList_eq_all]; exact hacc
              simp [wf, wfList_eq_all, List.all_reverse, List.all_cons, hwv, hacc2]
            · rw [if_neg hd2] at h
              simp at h
    · intro cs acc out hacc h
      simp only [parseF] at h
      cases hs : skipWs cs with
      | nil => rw [hs] at h; simp at h
      | cons d cs' =>
        rw [hs] at h
        simp only at h
        by_cases hd : d = '"'
        · rw [if_pos hd] at h
          cases hps : parseStr cs' with
          | none => rw [hps] at h; simp at h
          | some p =>
            rw [hps] at h
            obtain ⟨kbody, r⟩ := p
            simp only at h
            cases hs2 : skipWs r with
            | nil => rw [hs2] at h; simp at h
            | cons e r' =>
              rw [hs2] at h
              simp only at h
              by_cases he : e = ':'
              · rw [if_pos he] at h
                cases hv : parseF f (.val r') with
                | none => rw [hv] at h; simp at h
                | some q =>
                  rw [hv] at h
                  obtain ⟨v, r2⟩ := q
                  have hwv : wf v = true := ihv _ _ hv
                  simp only at h
                  cases hs3 : skipWs r2 with
                  | nil => rw [hs3] at h; simp at h
                  | cons fc r3 =>
                    rw [hs3] at h
                    simp only at h
                    by_cases hf : fc = ','
                    · rw [if_pos hf] at h
                      exact ihm _ _ _ (by simp [wfPairs, hwv, hacc]) h
                    · rw [if_neg hf] at h
                      by_cases hf2 : fc = '}'
                      · simp only [if_pos hf2, Option.some.injEq] at h
                        rw [← h]
                        have hacc2 : acc.all (fun p => wf p.2) = true := by
                          rw [← wfPairs_eq_all]; exact hacc
                        simp [wf, wfPairs_eq_all, List.all_reverse, List.all_cons,
                          hwv, hacc2]
                      · rw [if_neg hf2] at h
                        simp at h
              · rw [if_neg he] at h
                simp at h
        · rw [if_neg hd] at h
          simp at h

theorem stringify_of_wf (v : JSValue) (h : wf v = true) :
    stringify v = some (String.mk (serVal 0 v)) := by
  cases v with
  | undefined => simp [wf] at h
  | null => rfl
  | bool b => rfl
  | num n => rfl
  | str s => rfl
  | arr xs => rfl
  | obj ps => rfl

/-- **C8**: for every Document value obtained from a successful parse,
serializing it with the indented re-serialization used by `formatInput` and
re-parsing that text yields the same Document: the serialize-then-parse
round trip is the identity on parsed documents. -/
theorem jsonParse_stringify_roundtrip (s : String) (v : JSValue)
    (h : jsonParse s = some v) : (stringify v).bind jsonParse = some v := by
  have hwf : wf v = true := by
    unfold jsonParse at h
    cases hp : parseF (3 * s.toList.length + 3) (.val s.toList) with
    | none => rw [hp] at h; simp at h
    | some p =>
      rw [hp] at h
      obtain ⟨v0, r⟩ := p
      simp only at h
      by_cases he : (skipWs r).isEmpty
      · rw [if_pos he, Option.some.injEq] at h
        subst h
        exact ((parse_wf _).1 _ _ hp)
      · rw [if_neg he] at h
        simp at h
  have hs := stringify_of_wf v hwf
  rw [hs]
  rw [show (some (String.mk (serVal 0 v))).bind jsonParse
      = jsonParse (String.mk (serVal 0 v)) from rfl]
  unfold jsonParse
  rw [show (String.mk (serVal 0 v)).toList = serVal 0 v from rfl]
  have hrt := roundtrip_val v hwf 0 [] (3 * (serVal 0 v).length + 3) rfl
    (by have := nodes_le_len v 0; omega)
  rw [List.append_nil] at hrt
  rw [hrt]
  simp [skipWs]

/-- **C8 witness**: a concrete parsed document round trips. -/
theorem jsonParse_stringify_roundtrip_witness :
    (stringify (JSValue.arr [JSValue.num 1, JSValue.null,
        JSValue.arr []])).bind jsonParse
      = some (JSValue.arr [JSValue.num 1, JSValue.null, JSValue.arr []]) :=
  jsonParse_stringify_roundtrip "[1, null, []]"
    (JSValue.arr [JSValue.num 1, JSValue.null, JSValue.arr []]) rfl
